import Mathlib

/-!
Verification development for the SLEPc core numerical engines.

Shallow embedding of the code paths that decide the claims:

* `STBackTransform_Sinvert` (src/st/impls/sinvert/sinvert.c): eigenvalue
  back-transform of the shift-and-invert spectral transform.
* `SlepcSqrtmDenmanBeavers` (src/sys/classes/fn/impls/fnutil.c) and
  `FNSqrtmSadeghi` (src/sys/classes/fn/impls/sqrt/fnsqrt.c): control
  skeleton of the iterative dense matrix square-root methods, with the
  per-iteration Frobenius residual abstracted as an oracle sequence.
* `SVDSolve_Cyclic` / `SVDComputeVectors_Cyclic` (src/svd/impls/cyclic/cyclic.c).
* `EstimateNumberEigs`, `SetPathParameter`, `SetSolverComm`, `EPSSetUp_CISS`,
  `EPSSolve_CISS` (src/eps/impls/ciss/ciss.c).
* `ArnoldiResiduals` (src/eps/impls/krylov/krylov.c).
* `BVSetRandom` (src/sys/classes/bv/interface/bvops.c).
-/

/- ------------------------------------------------------------------ -/
/- Shared: convergence reasons                                         -/
/- ------------------------------------------------------------------ -/

/-- Convergence reasons surfaced to the caller (subset of the EPS/SVD
taxonomy needed here). -/
inductive SlepcConvergedReason where
  | convergedTol
  | iterating
  | divergedIts
  | divergedBreakdown
deriving DecidableEq, Repr

/- ------------------------------------------------------------------ -/
/- C3: shift-and-invert back-transform                                 -/
/- ------------------------------------------------------------------ -/

/-- Loop body of `STBackTransform_Sinvert` (real-scalar branch,
sinvert.c lines 72-80) acting on one `(eigr[j], eigi[j])` entry:
if `eigi[j] == 0` then `eigr[j] = 1.0/eigr[j] + sigma`, else with
`t = eigr[j]*eigr[j] + eigi[j]*eigi[j]` set `eigr[j] = eigr[j]/t + sigma`
and `eigi[j] = -eigi[j]/t`. -/
noncomputable def backTransformEntry (sigma : ℝ) (e : ℝ × ℝ) : ℝ × ℝ :=
  if e.2 = 0 then (1 / e.1 + sigma, e.2)
  else
    let t := e.1 * e.1 + e.2 * e.2
    (e.1 / t + sigma, -e.2 / t)

/-- `STBackTransform_Sinvert` (real-scalar branch): the loop over
`j = 0..n-1` applies `backTransformEntry` to every entry of the
eigenvalue arrays. -/
noncomputable def STBackTransform_Sinvert (sigma : ℝ) (eig : List (ℝ × ℝ)) :
    List (ℝ × ℝ) :=
  eig.map (backTransformEntry sigma)

/- ------------------------------------------------------------------ -/
/- C1: iteration caps of the dense matrix square-root methods          -/
/- ------------------------------------------------------------------ -/

/-- PETSC_MACHINE_EPSILON for double precision (DBL_EPSILON). -/
noncomputable def machineEps : ℝ := 1 / 2 ^ 52

/-- Base tolerance of the iterative square-root methods:
`tol = PetscSqrtReal((PetscReal)n)*PETSC_MACHINE_EPSILON/2`
(fnutil.c line 197, fnsqrt.c line 127). -/
noncomputable def sqrtmTol (n : ℕ) : ℝ := Real.sqrt n * machineEps / 2

/-- Control skeleton shared by the iterative square-root methods:
`for (it=0; it<MAXIT && !converged; it++) { ...; Mres = <residual>;
if (Mres<=tol) converged = PETSC_TRUE; }`.  The per-iteration residual
`Mres` computed by the dense linear algebra is abstracted as the oracle
sequence `res`; the function returns the value of `Mres` after the loop
(third argument: current `Mres`, overwritten on every executed
iteration). -/
noncomputable def sqrtmRun (tol : ℝ) (res : ℕ → ℝ) : ℕ → ℕ → ℝ → ℝ
  | 0, _, m => m
  | fuel + 1, it, _ =>
      if res it ≤ tol then res it else sqrtmRun tol res fuel (it + 1) (res it)

/-- Final residual of a capped square-root iteration started at
iteration 0 (initial `Mres` irrelevant: the loop body always executes
when the cap is positive). -/
noncomputable def sqrtmFinalRes (maxit : ℕ) (tol : ℝ) (res : ℕ → ℝ) : ℝ :=
  sqrtmRun tol res maxit 0 0

/-- The method signals `SQRTM not converged` exactly when the residual
after the loop still exceeds the tolerance (`if (Mres>tol) SETERRQ...`). -/
noncomputable def sqrtmNotConverged (maxit : ℕ) (tol : ℝ) (res : ℕ → ℝ) : Prop :=
  tol < sqrtmFinalRes maxit tol res

/-- Number of loop-body executions of the capped iteration. -/
noncomputable def sqrtmIters (tol : ℝ) (res : ℕ → ℝ) : ℕ → ℕ → ℕ
  | 0, _ => 0
  | fuel + 1, it =>
      if res it ≤ tol then 1 else 1 + sqrtmIters tol res fuel (it + 1)

/-- Iteration count of a capped square-root iteration started at 0. -/
noncomputable def sqrtmIterCount (maxit : ℕ) (tol : ℝ) (res : ℕ → ℝ) : ℕ :=
  sqrtmIters tol res maxit 0

/-- Iteration cap of `SlepcSqrtmDenmanBeavers`: `#define DBMAXIT 25`
(fnutil.c line 174). -/
def DBMAXIT : ℕ := 25

/-- Iteration cap of `FNSqrtmSadeghi`: `#define MAXIT 50`
(fnsqrt.c line 109). -/
def FNSQRT_MAXIT : ℕ := 50

/-- `SlepcSqrtmDenmanBeavers` raises `MatrixFunctionNotConverged`
(fnutil.c lines 210-265): 25-iteration cap, tolerance `sqrt(n)*eps/2`. -/
noncomputable def SlepcSqrtmDenmanBeavers_notConverged (n : ℕ) (res : ℕ → ℝ) : Prop :=
  sqrtmNotConverged DBMAXIT (sqrtmTol n) res

/-- Tolerance actually used by `FNSqrtmSadeghi`: the base tolerance is
multiplied by `nrm = ||A||_F` whenever `nrm > 1` (`tol *= nrm`,
fnsqrt.c lines 139-144). -/
noncomputable def sadeghiTol (n : ℕ) (nrm : ℝ) : ℝ :=
  if 1 < nrm then sqrtmTol n * nrm else sqrtmTol n

/-- `FNSqrtmSadeghi` raises `MatrixFunctionNotConverged`
(fnsqrt.c lines 151-184): 50-iteration cap, scaled tolerance. -/
noncomputable def FNSqrtmSadeghi_notConverged (n : ℕ) (nrm : ℝ) (res : ℕ → ℝ) : Prop :=
  sqrtmNotConverged FNSQRT_MAXIT (sadeghiTol n nrm) res

/-- Modelled from the spec: `FNSqrtmNewtonSchulz` is only called from
src (fnsqrt.c line 104), its body is not part of the sources; the spec
prescribes the common 50-iteration cap with tolerance `sqrt(n)*eps/2`
on the Frobenius residual. -/
noncomputable def FNSqrtmNewtonSchulz_notConverged (n : ℕ) (res : ℕ → ℝ) : Prop :=
  sqrtmNotConverged FNSQRT_MAXIT (sqrtmTol n) res

/-- Residual trajectory used to separate the 25-iteration cap of
Denman-Beavers from the claimed 50-iteration cap: the residual stays at
1 for the first 30 iterations and then drops to 0. -/
noncomputable def dbClaimRes : ℕ → ℝ := fun it => if it < 30 then 1 else 0

/- ------------------------------------------------------------------ -/
/- C8: CISS setup precondition errors                                  -/
/- ------------------------------------------------------------------ -/

/-- Unsupported-feature errors (`PETSC_ERR_SUP`) that `EPSSetUp_CISS`
can raise. -/
inductive CissSetupError where
  | realScalarsUnsupported
  | extractionUnsupported
  | arbitrarySelectionUnsupported
  | leftVectorsUnsupported
deriving DecidableEq, Repr

/-- State inspected by the guard checks of `EPSSetUp_CISS`:
whether the library is compiled with complex scalars, whether
`eps->extraction` has been set and equals `EPS_RITZ`, whether
`eps->arbitrary` is non-null and whether left eigenvectors were
requested (`eps->leftvecs`). -/
structure CissSetupFlags where
  useComplex : Bool
  extractionSet : Bool
  extractionIsRitz : Bool
  arbitrarySelection : Bool
  leftVectors : Bool
deriving DecidableEq, Fintype

/-- Guard sequence of `EPSSetUp_CISS` (ciss.c lines 480-489 and 547), in
source order: real scalars (compile-time `SETERRQ`), extraction other
than Ritz, arbitrary selection, and - at the end of setup - left
eigenvectors.  Returns the first error raised, if any. -/
def EPSSetUp_CISS_check (s : CissSetupFlags) : Option CissSetupError :=
  if !s.useComplex then some .realScalarsUnsupported
  else if s.extractionSet && !s.extractionIsRitz then some .extractionUnsupported
  else if s.arbitrarySelection then some .arbitrarySelectionUnsupported
  else if s.leftVectors then some .leftVectorsUnsupported
  else none

/- ------------------------------------------------------------------ -/
/- C2, C4: cyclic SVD driver                                           -/
/- ------------------------------------------------------------------ -/

/-- Result of the embedded Hermitian eigensolver consumed by
`SVDSolve_Cyclic`: converged (real) eigenvalues of the cyclic operator
and the converged reason reported by `EPSGetConvergedReason`. -/
structure EPSOutcome where
  eigs : List ℚ
  reason : SlepcConvergedReason

/-- Singular-value extraction loop of `SVDSolve_Cyclic` (cyclic.c lines
463-470): for each converged eigenvalue `sigma` with positive real
part, store `1/sigma` when the problem is a generalized SVD solved with
`which == SVD_SMALLEST` (alternative pencil), else `sigma`;
eigenvalues with non-positive real part are skipped. -/
def svdCyclicSigmas (isgen smallest : Bool) : List ℚ → List ℚ
  | [] => []
  | sigma :: rest =>
      if 0 < sigma then
        (if isgen && smallest then 1 / sigma else sigma) ::
          svdCyclicSigmas isgen smallest rest
      else svdCyclicSigmas isgen smallest rest

/-- Result of `SVDSolve_Cyclic`: extracted singular values, their count
(`svd->nconv = j`), and the reason copied verbatim from the embedded
eigensolver. -/
structure SVDOutcome where
  sigmas : List ℚ
  nconv : ℕ
  reason : SlepcConvergedReason

/-- `SVDSolve_Cyclic` (cyclic.c lines 452-473). -/
def SVDSolve_Cyclic (isgen smallest : Bool) (er : EPSOutcome) : SVDOutcome :=
  ⟨svdCyclicSigmas isgen smallest er.eigs,
   (svdCyclicSigmas isgen smallest er.eigs).length, er.reason⟩

/-- `MatMult_Cyclic` (cyclic.c lines 20-45): the shell cyclic operator
`C = [[0, A], [A^T, 0]]` multiplies the top block by `A` applied to the
lower half of the input and the bottom block by `A^T` applied to the
upper half. -/
def cyclicMult (m n : ℕ) (A : Matrix (Fin m) (Fin n) ℚ)
    (x : Fin m ⊕ Fin n → ℚ) : Fin m ⊕ Fin n → ℚ :=
  fun idx =>
    match idx with
    | .inl i => ∑ j, A i j * x (.inr j)
    | .inr j => ∑ i, A.transpose j i * x (.inl i)

/-- `sigma` is an eigenvalue of the cyclic operator built from `A`. -/
def cyclicHasEigenvalue (m n : ℕ) (A : Matrix (Fin m) (Fin n) ℚ) (sigma : ℚ) : Prop :=
  ∃ x : Fin m ⊕ Fin n → ℚ, x ≠ 0 ∧ cyclicMult m n A x = sigma • x

/-- Left singular vector recovery in `SVDComputeVectors_Cyclic`
(standard case, cyclic.c lines 538-548): the top `m` entries of the
eigenvector, scaled by `sqrt(2)` (`BVScaleColumn(svd->U,j,PETSC_SQRT2)`). -/
noncomputable def cyclicVecTop (m n : ℕ) (x : Fin m ⊕ Fin n → ℝ) : Fin m → ℝ :=
  fun i => Real.sqrt 2 * x (.inl i)

/-- Right singular vector recovery in `SVDComputeVectors_Cyclic`
(standard case): the bottom `n` entries of the eigenvector, scaled by
`sqrt(2)`. -/
noncomputable def cyclicVecBottom (m n : ℕ) (x : Fin m ⊕ Fin n → ℝ) : Fin n → ℝ :=
  fun j => Real.sqrt 2 * x (.inr j)

/-- Spec-side description of the eigenvector of the cyclic operator for
the singular triplet `(sigma, u, v)`: the vector `[u; v] / sqrt(2)`.
Used to compare the recovery of the code with the form stated in the
spec. -/
noncomputable def cyclicEigenvectorOf (m n : ℕ) (u : Fin m → ℝ) (v : Fin n → ℝ) :
    Fin m ⊕ Fin n → ℝ :=
  fun idx =>
    match idx with
    | .inl i => u i / Real.sqrt 2
    | .inr j => v j / Real.sqrt 2

/- ------------------------------------------------------------------ -/
/- C5: CISS eigenvalue-count estimate                                  -/
/- ------------------------------------------------------------------ -/

/-- Estimate of the eigenvalue count in `EstimateNumberEigs`
(ciss.c line 241): `ctx->est_eig = PetscAbsScalar(ctx->radius*sum/L)`
where `sum` accumulates the inner products `VecDot(V_p, S1[i])` over
the `L` block columns (passed here as the list `dots`). -/
noncomputable def cissEstEig (radius : ℝ) (dots : List ℂ) (L : ℕ) : ℝ :=
  Complex.abs ((radius : ℂ) * dots.sum / (L : ℂ))

/-- Growth factor in `EstimateNumberEigs` (ciss.c line 242):
`eta = PetscPowReal(10, -log10(eps->tol)/ctx->N)`. -/
noncomputable def cissEta (tol : ℝ) (N : ℕ) : ℝ :=
  (10 : ℝ) ^ (-(Real.logb 10 tol) / N)

/-- Block-size increment computed by `EstimateNumberEigs`
(ciss.c lines 244-249): `L_add = ceil(est_eig*eta/M) - L`, clamped
below at 0 and above so that `L + L_add` never exceeds `L_max`. -/
noncomputable def EstimateNumberEigs_Ladd (estEig eta : ℝ) (M L Lmax : ℤ) : ℤ :=
  let raw := ⌈estEig * eta / (M : ℝ)⌉ - L
  let clamped := if raw < 0 then 0 else raw
  if clamped > Lmax - L then Lmax - L else clamped

/- ------------------------------------------------------------------ -/
/- C7: CISS quadrature setup and conjugate symmetry                    -/
/- ------------------------------------------------------------------ -/

/-- Quadrature angle in `SetPathParameter` (ciss.c line 106):
`theta = ((2*PETSC_PI)/ctx->N)*(i+0.5)`. -/
noncomputable def SetPathParameter_theta (N i : ℕ) : ℝ :=
  ((2 * Real.pi) / N) * (i + 0.5)

/-- Reference point in `SetPathParameter` (ciss.c line 107):
`pp[i] = cos(theta) + PETSC_i*vscale*sin(theta)`. -/
noncomputable def SetPathParameter_pp (vscale : ℝ) (N i : ℕ) : ℂ :=
  (Real.cos (SetPathParameter_theta N i) : ℂ) +
    Complex.I * (vscale : ℂ) * (Real.sin (SetPathParameter_theta N i) : ℂ)

/-- Quadrature node in `SetPathParameter` (ciss.c line 108):
`omega[i] = center + radius*pp[i]`. -/
noncomputable def SetPathParameter_omega (center : ℂ) (radius vscale : ℝ)
    (N i : ℕ) : ℂ :=
  center + (radius : ℂ) * SetPathParameter_pp vscale N i

/-- Quadrature weight in `SetPathParameter` (ciss.c line 109):
`weight[i] = vscale*cos(theta) + PETSC_i*sin(theta)`. -/
noncomputable def SetPathParameter_weight (vscale : ℝ) (N i : ℕ) : ℂ :=
  (vscale : ℂ) * (Real.cos (SetPathParameter_theta N i) : ℂ) +
    Complex.I * (Real.sin (SetPathParameter_theta N i) : ℂ)

/-- Conjugate-symmetry flag set by `EPSSetUp_CISS` (ciss.c lines 491-492):
`useconj = (ctx->isreal && PetscImaginaryPart(ctx->center) == 0.0)`. -/
noncomputable def EPSSetUp_CISS_useconj (isreal : Bool) (center : ℂ) : Bool :=
  if isreal = true ∧ center.im = 0 then true else false

/-- Number of quadrature points inducing shifted linear solves, set by
`SetSolverComm` (ciss.c lines 84-94): `if (ctx->useconj) N = N/2;
ctx->num_solve_point = N`. -/
def SetSolverComm_numSolvePoint (N : ℕ) (useconj : Bool) : ℕ :=
  if useconj then N / 2 else N

/- ------------------------------------------------------------------ -/
/- C9: BVSetRandom distribution independence                           -/
/- ------------------------------------------------------------------ -/

/-- Local fill loop of `BVSetRandom` (bvops.c lines 563-568) on a rank
owning the index range `[low, high)`: for `i = 0..N-1` draw the next
value of the shared stream and store it at local position `i - low`
only when `low <= i < high`.  Every rank consumes the full global
sequence of `N` draws.  Returns the local array. -/
def BVSetRandom_fill (rng : ℕ → ℚ) (N low high : ℕ) : List ℚ :=
  (List.range N).filterMap
    (fun i => if low ≤ i ∧ i < high then some (rng i) else none)

/-- Ownership ranges of a parallel layout given by the list of local
sizes: rank `r` owns `[offset r, offset r + size r)`. -/
def layoutRanges : ℕ → List ℕ → List (ℕ × ℕ)
  | _, [] => []
  | start, c :: rest => (start, start + c) :: layoutRanges (start + c) rest

/-- Global column produced by `BVSetRandom` under a given layout: the
concatenation of the local arrays of all ranks in rank order. -/
def BVSetRandom_global (rng : ℕ → ℚ) (N : ℕ) (parts : List ℕ) : List ℚ :=
  (layoutRanges 0 parts).flatMap (fun r => BVSetRandom_fill rng N r.1 r.2)

/- ------------------------------------------------------------------ -/
/- C6: Arnoldi residual estimates                                      -/
/- ------------------------------------------------------------------ -/

/-- Sum of squares of the entries of a vector. -/
noncomputable def sumSq (n : ℕ) (v : Fin n → ℝ) : ℝ := ∑ j, v j ^ 2

/-- Euclidean norm (`BLASnrm2`). -/
noncomputable def nrm2 (n : ℕ) (v : Fin n → ℝ) : ℝ := Real.sqrt (sumSq n v)

/-- Modelled from the spec: the helper `SlepcAbsEigenvalue(x,y)` lives
in a header not present under src; per the spec formula for the pair
residual it is the modulus `sqrt(x^2 + y^2)`. -/
noncomputable def slepcAbsEigenvalue (x y : ℝ) : ℝ := Real.sqrt (x ^ 2 + y ^ 2)

/-- Columns of the eigenvector matrix `Y` produced by `xTREVC` in real
arithmetic: a real Ritz value owns one column, a complex-conjugate
Ritz pair owns two consecutive columns (real and imaginary parts),
which is exactly the `eigi[i] != 0` / `i++` structure consumed by the
loops of `ArnoldiResiduals` (krylov.c lines 116-144). -/
inductive RitzColumns (n : ℕ) where
  | single (y : Fin n → ℝ)
  | pair (yr yi : Fin n → ℝ)

/-- Normalization of a single eigenvector column (krylov.c lines
128-130): scale by `1/norm`. -/
noncomputable def normalizedSingle (n : ℕ) (y : Fin n → ℝ) : Fin n → ℝ :=
  fun j => (1 / nrm2 n y) * y j

/-- Normalization applied to each column of a conjugate pair (krylov.c
lines 119-123): both columns are scaled by
`1/SlepcAbsEigenvalue(norm, normi)`, the joint norm of the two
columns. -/
noncomputable def normalizedPairCol (n : ℕ) (yr yi col : Fin n → ℝ) : Fin n → ℝ :=
  fun j => (1 / slepcAbsEigenvalue (nrm2 n yr) (nrm2 n yi)) * col j

/-- Normalization pass of `ArnoldiResiduals` (krylov.c lines 115-132). -/
noncomputable def normalizeColumns (n : ℕ) : RitzColumns n → RitzColumns n
  | .single y => .single (normalizedSingle n y)
  | .pair yr yi => .pair (normalizedPairCol n yr yi yr) (normalizedPairCol n yr yi yi)

/-- Residual-estimate pass of `ArnoldiResiduals` (krylov.c lines
134-144) on one block of normalized columns of length `n+1`: a single
column contributes `beta*|Y[ncv-1]|`; a pair contributes
`beta*SlepcAbsEigenvalue(Y[i*ncv+ncv-1], Y[(i+1)*ncv+ncv-1])` to both
of its indices (`errest[i+1] = errest[i]`). -/
noncomputable def columnsErrest (n : ℕ) (beta : ℝ) : RitzColumns (n + 1) → List ℝ
  | .single y => [beta * |y (Fin.last n)|]
  | .pair yr yi =>
      [beta * slepcAbsEigenvalue (yr (Fin.last n)) (yi (Fin.last n)),
       beta * slepcAbsEigenvalue (yr (Fin.last n)) (yi (Fin.last n))]

/-- `ArnoldiResiduals` (krylov.c lines 82-147), real-arithmetic path:
normalize the eigenvector columns of `H`, then emit one residual
estimate per Ritz index. -/
noncomputable def ArnoldiResiduals (n : ℕ) (beta : ℝ)
    (blocks : List (RitzColumns (n + 1))) : List ℝ :=
  blocks.flatMap (fun b => columnsErrest n beta (normalizeColumns (n + 1) b))

/- ------------------------------------------------------------------ -/
/- C10: CISS solve loop converged reason                               -/
/- ------------------------------------------------------------------ -/

/-- Data produced by one outer iteration of `EPSSolve_CISS` and
inspected by its control flow: the numerical rank `nv` of the
subspace, the number of retained Ritz pairs, and the maximum relative
residual of the retained pairs. -/
structure CissIterData where
  nv : ℕ
  nconv : ℕ
  maxError : ℝ

/-- Outer refinement loop of `EPSSolve_CISS` (ciss.c lines 633-737):
`for (outer=0; outer<=refine_outer; outer++)`, with `eps->nconv = 0`
and `break` when `nv == 0`, and `break` when
`max_error <= eps->tol || outer == ctx->refine_outer`; otherwise the
eigenvectors are recombined randomly and the loop continues.  Returns
the final `eps->nconv`. -/
noncomputable def cissOuterNconv (tol : ℝ) (refineOuter : ℕ)
    (data : ℕ → CissIterData) : ℕ → ℕ → ℕ
  | 0, _ => 0
  | fuel + 1, outer =>
      if (data outer).nv = 0 then 0
      else if (data outer).maxError ≤ tol ∨ outer = refineOuter then
        (data outer).nconv
      else cissOuterNconv tol refineOuter data fuel (outer + 1)

/-- `EPSSolve_CISS` (ciss.c lines 554-740): after the outer loop the
solver unconditionally sets `eps->reason = EPS_CONVERGED_TOL`
(line 738). -/
noncomputable def EPSSolve_CISS (tol : ℝ) (refineOuter : ℕ)
    (data : ℕ → CissIterData) : ℕ × SlepcConvergedReason :=
  (cissOuterNconv tol refineOuter data (refineOuter + 1) 0,
   SlepcConvergedReason.convergedTol)

/- ------------------------------------------------------------------ -/
/- Helper lemmas                                                       -/
/- ------------------------------------------------------------------ -/

theorem sqrtmRun_gt_iff (tol : ℝ) (res : ℕ → ℝ) :
    ∀ fuel it m, 1 ≤ fuel →
      (tol < sqrtmRun tol res fuel it m ↔ ∀ k < fuel, tol < res (it + k)) := by
  intro fuel
  induction fuel with
  | zero => intro it m h; omega
  | succ f ih =>
      intro it m _
      by_cases hc : res it ≤ tol
      · simp only [sqrtmRun, if_pos hc]
        constructor
        · intro h; exact absurd h (not_lt.mpr hc)
        · intro h; exact absurd (h 0 (Nat.succ_pos f)) (by simpa using not_lt.mpr hc)
      · simp only [sqrtmRun, if_neg hc]
        push_neg at hc
        rcases Nat.eq_zero_or_pos f with hf | hf
        · subst hf
          simp only [sqrtmRun]
          constructor
          · intro _ k hk
            interval_cases k
            simpa using hc
          · intro _; simpa using hc
        · rw [ih (it + 1) (res it) hf]
          constructor
          · intro h k hk
            rcases Nat.eq_zero_or_pos k with hk0 | hk0
            · subst hk0; simpa using hc
            · have := h (k - 1) (by omega)
              have hidx : it + 1 + (k - 1) = it + k := by omega
              rwa [hidx] at this
          · intro h k hk
            have := h (k + 1) (by omega)
            have hidx : it + (k + 1) = it + 1 + k := by omega
            rwa [hidx] at this

theorem sqrtmIters_le (tol : ℝ) (res : ℕ → ℝ) :
    ∀ fuel it, sqrtmIters tol res fuel it ≤ fuel := by
  intro fuel
  induction fuel with
  | zero => intro it; simp [sqrtmIters]
  | succ f ih =>
      intro it
      by_cases hc : res it ≤ tol
      · simp [sqrtmIters, if_pos hc]
      · simp only [sqrtmIters, if_neg hc]
        have := ih (it + 1)
        omega

/- ------------------------------------------------------------------ -/
/- Claim theorems                                                      -/
/- ------------------------------------------------------------------ -/

/-- C3: for every shift `sigma` and every eigenvalue list, the entry at
any index `j` of the shift-and-invert back-transform is `1/eigr + sigma`
(with `eigi` left at `0`) when `eigi = 0`, and otherwise, with
`t = eigr^2 + eigi^2`, it is `(eigr/t + sigma, -eigi/t)`. -/
theorem st_backtransform_sinvert_formula (sigma : ℝ) (eig : List (ℝ × ℝ))
    (j : ℕ) (hj : j < eig.length)
    (hj2 : j < (STBackTransform_Sinvert sigma eig).length) :
    ((eig.get ⟨j, hj⟩).2 = 0 →
      (STBackTransform_Sinvert sigma eig).get ⟨j, hj2⟩ =
        (1 / (eig.get ⟨j, hj⟩).1 + sigma, 0)) ∧
    ((eig.get ⟨j, hj⟩).2 ≠ 0 →
      (STBackTransform_Sinvert sigma eig).get ⟨j, hj2⟩ =
        ((eig.get ⟨j, hj⟩).1 / ((eig.get ⟨j, hj⟩).1 ^ 2 + (eig.get ⟨j, hj⟩).2 ^ 2) + sigma,
         -(eig.get ⟨j, hj⟩).2 / ((eig.get ⟨j, hj⟩).1 ^ 2 + (eig.get ⟨j, hj⟩).2 ^ 2))) := by
  have hmap : (STBackTransform_Sinvert sigma eig).get ⟨j, hj2⟩ =
      backTransformEntry sigma (eig.get ⟨j, hj⟩) := by
    simp [STBackTransform_Sinvert]
  constructor
  · intro h0
    rw [hmap, backTransformEntry, if_pos h0, h0]
  · intro hne
    rw [hmap, backTransformEntry, if_neg hne]
    have h1 : (eig.get ⟨j, hj⟩).1 * (eig.get ⟨j, hj⟩).1 + (eig.get ⟨j, hj⟩).2 * (eig.get ⟨j, hj⟩).2 =
        (eig.get ⟨j, hj⟩).1 ^ 2 + (eig.get ⟨j, hj⟩).2 ^ 2 := by ring
    simp only [h1]

/-- C3 witness: at `sigma = 2` and the single real eigenvalue `(3, 0)`,
the back-transform returns `(1/3 + 2, 0)`. -/
theorem st_backtransform_sinvert_formula_witness :
    (STBackTransform_Sinvert 2 [((3 : ℝ), 0)]).get ⟨0, by simp [STBackTransform_Sinvert]⟩ =
      (1 / 3 + 2, 0) :=
  (st_backtransform_sinvert_formula 2 [((3 : ℝ), 0)] 0 (by simp)
    (by simp [STBackTransform_Sinvert])).1 rfl

/-- C1 counterexample: on the residual trajectory `dbClaimRes` (above the
tolerance for 30 iterations, then 0) with `n = 4`, the Denman-Beavers
code raises `MatrixFunctionNotConverged` because its cap is 25
iterations, although under the claimed 50-iteration cap with the same
tolerance `sqrt(n)*eps/2` the iteration converges and no error would be
raised; so the error is not raised "iff the residual still exceeds the
tolerance when the [50-iteration] cap is reached". -/
theorem fn_sqrt_cap50_counterexample :
    SlepcSqrtmDenmanBeavers_notConverged 4 dbClaimRes ∧
    ¬ sqrtmNotConverged 50 (sqrtmTol 4) dbClaimRes := by
  have h4 : sqrtmTol 4 = machineEps := by
    have hs : Real.sqrt ((4 : ℕ) : ℝ) = 2 := by
      have h1 : ((4 : ℕ) : ℝ) = 2 ^ 2 := by norm_num
      rw [h1, Real.sqrt_sq (by norm_num : (0 : ℝ) ≤ 2)]
    rw [sqrtmTol, hs]; ring
  have heps0 : (0 : ℝ) ≤ machineEps := by rw [machineEps]; positivity
  have heps1 : machineEps < 1 := by rw [machineEps]; norm_num
  constructor
  · rw [SlepcSqrtmDenmanBeavers_notConverged, sqrtmNotConverged, sqrtmFinalRes,
      DBMAXIT, sqrtmRun_gt_iff (sqrtmTol 4) dbClaimRes 25 0 0 (by norm_num)]
    intro k hk
    rw [dbClaimRes, h4]
    simp only [zero_add]
    rw [if_pos (by omega : k < 30)]
    exact heps1
  · rw [sqrtmNotConverged, sqrtmFinalRes,
      sqrtmRun_gt_iff (sqrtmTol 4) dbClaimRes 50 0 0 (by norm_num)]
    intro h
    have h30 := h 30 (by norm_num)
    rw [dbClaimRes, h4] at h30
    simp only [zero_add] at h30
    rw [if_neg (by omega : ¬ 30 < 30)] at h30
    exact absurd h30 (not_lt.mpr heps0)

/-- C1 (amended): Denman-Beavers performs at most 25 iterations
(`DBMAXIT 25`) and raises `MatrixFunctionNotConverged` iff the Frobenius
residual exceeded `sqrt(n)*eps/2` at every one of those 25 iterations;
Sadeghi and Newton-Schulz perform at most 50 iterations, Newton-Schulz
testing against `sqrt(n)*eps/2` and Sadeghi against that tolerance
scaled by `||A||_F` when `||A||_F > 1`, each raising the error iff the
residual exceeded its tolerance at every iteration up to its own cap. -/
theorem fn_sqrt_iteration_caps (n : ℕ) (nrm : ℝ) (res : ℕ → ℝ) :
    (SlepcSqrtmDenmanBeavers_notConverged n res ↔
      ∀ it < 25, sqrtmTol n < res it) ∧
    (FNSqrtmSadeghi_notConverged n nrm res ↔
      ∀ it < 50, sadeghiTol n nrm < res it) ∧
    (FNSqrtmNewtonSchulz_notConverged n res ↔
      ∀ it < 50, sqrtmTol n < res it) ∧
    sqrtmIterCount DBMAXIT (sqrtmTol n) res ≤ 25 ∧
    sqrtmIterCount FNSQRT_MAXIT (sadeghiTol n nrm) res ≤ 50 ∧
    sqrtmIterCount FNSQRT_MAXIT (sqrtmTol n) res ≤ 50 := by
  refine ⟨?_, ?_, ?_, ?_, ?_, ?_⟩
  · rw [SlepcSqrtmDenmanBeavers_notConverged, sqrtmNotConverged, sqrtmFinalRes,
      DBMAXIT, sqrtmRun_gt_iff (sqrtmTol n) res 25 0 0 (by norm_num)]
    simp only [zero_add]
  · rw [FNSqrtmSadeghi_notConverged, sqrtmNotConverged, sqrtmFinalRes,
      FNSQRT_MAXIT, sqrtmRun_gt_iff (sadeghiTol n nrm) res 50 0 0 (by norm_num)]
    simp only [zero_add]
  · rw [FNSqrtmNewtonSchulz_notConverged, sqrtmNotConverged, sqrtmFinalRes,
      FNSQRT_MAXIT, sqrtmRun_gt_iff (sqrtmTol n) res 50 0 0 (by norm_num)]
    simp only [zero_add]
  · exact sqrtmIters_le _ _ _ _
  · exact sqrtmIters_le _ _ _ _
  · exact sqrtmIters_le _ _ _ _

theorem svdCyclicSigmas_eq (isgen smallest : Bool) (eigs : List ℚ) :
    svdCyclicSigmas isgen smallest eigs =
      (eigs.filter (fun sigma => decide (0 < sigma))).map
        (fun sigma => if isgen && smallest then 1 / sigma else sigma) := by
  induction eigs with
  | nil => rfl
  | cons sigma rest ih =>
      by_cases h : 0 < sigma
      · simp [svdCyclicSigmas, List.filter_cons, h, ih]
      · simp [svdCyclicSigmas, List.filter_cons, h, ih]

theorem cyclic_zero_eigenvalue (m n : ℕ) (sigma : ℚ)
    (h : cyclicHasEigenvalue m n 0 sigma) : sigma = 0 := by
  obtain ⟨x, hx, he⟩ := h
  have hz : cyclicMult m n 0 x = 0 := by
    funext idx
    cases idx with
    | inl i => simp [cyclicMult]
    | inr j => simp [cyclicMult]
  rw [hz] at he
  rcases smul_eq_zero.mp he.symm with hs | hxz
  · exact hs
  · exact absurd hxz hx

/-- C8 counterexample: with complex scalars, Ritz extraction and no
arbitrary selection, but left eigenvectors requested, `EPSSetUp_CISS`
still fails with an unsupported-feature error (ciss.c line 547) that is
none of the three cases listed by the claim, so setup does not fail "in
exactly three precondition-violation cases". -/
theorem ciss_setup_fourth_case_counterexample :
    EPSSetUp_CISS_check ⟨true, true, true, false, true⟩ =
      some CissSetupError.leftVectorsUnsupported ∧
    CissSetupError.leftVectorsUnsupported ≠ CissSetupError.realScalarsUnsupported ∧
    CissSetupError.leftVectorsUnsupported ≠ CissSetupError.extractionUnsupported ∧
    CissSetupError.leftVectorsUnsupported ≠
      CissSetupError.arbitrarySelectionUnsupported := by
  decide

/-- C8 (amended): `EPSSetUp_CISS` fails with an unsupported-feature
error in exactly four precondition-violation cases - real scalar
arithmetic, extraction other than Ritz, arbitrary selection of
eigenpairs, and a request for left eigenvectors; under complex scalars
with Ritz extraction, no arbitrary selection and no left-vector
request, none of these errors is raised at setup. -/
theorem ciss_setup_unsupported_cases :
    ∀ s : CissSetupFlags,
      (EPSSetUp_CISS_check s = none ↔
        s.useComplex = true ∧ (s.extractionSet = true → s.extractionIsRitz = true) ∧
        s.arbitrarySelection = false ∧ s.leftVectors = false) ∧
      (s.useComplex = false →
        EPSSetUp_CISS_check s = some CissSetupError.realScalarsUnsupported) ∧
      (s.useComplex = true → s.extractionSet = true → s.extractionIsRitz = false →
        EPSSetUp_CISS_check s = some CissSetupError.extractionUnsupported) ∧
      (s.useComplex = true → (s.extractionSet = true → s.extractionIsRitz = true) →
        s.arbitrarySelection = true →
        EPSSetUp_CISS_check s = some CissSetupError.arbitrarySelectionUnsupported) ∧
      (s.useComplex = true → (s.extractionSet = true → s.extractionIsRitz = true) →
        s.arbitrarySelection = false → s.leftVectors = true →
        EPSSetUp_CISS_check s = some CissSetupError.leftVectorsUnsupported) := by
  intro s
  obtain ⟨a, b, c, d, e⟩ := s
  refine ⟨?_, ?_, ?_, ?_, ?_⟩ <;>
    (cases a <;> cases b <;> cases c <;> cases d <;> cases e <;> decide)

/-- C2: if the embedded Hermitian eigensolver returns eigenvalues of the
cyclic operator of the zero matrix (all of which are necessarily zero)
and reports `ConvergedTolerance`, then every singular value returned by
`SVDSolve_Cyclic` equals 0 and the solver reports the converged reason
`ConvergedTolerance` (copied verbatim from the eigensolver). -/
theorem svd_cyclic_zero_matrix (m n : ℕ) (er : EPSOutcome)
    (h1 : ∀ sigma ∈ er.eigs, cyclicHasEigenvalue m n 0 sigma)
    (h2 : er.reason = SlepcConvergedReason.convergedTol) :
    (∀ s ∈ (SVDSolve_Cyclic false false er).sigmas, s = 0) ∧
    (SVDSolve_Cyclic false false er).reason = SlepcConvergedReason.convergedTol := by
  constructor
  · intro s hs
    simp only [SVDSolve_Cyclic, svdCyclicSigmas_eq] at hs
    obtain ⟨sigma, hmem, hval⟩ := List.mem_map.mp hs
    have hpos : 0 < sigma := by
      have := List.of_mem_filter hmem
      simpa using this
    have hzero : sigma = 0 :=
      cyclic_zero_eigenvalue m n sigma (h1 sigma (List.mem_of_mem_filter hmem))
    rw [hzero] at hpos
    exact absurd hpos (lt_irrefl 0)
  · simpa [SVDSolve_Cyclic] using h2

/-- C2 witness: the concrete eigensolver outcome with eigenvalue list
`[0]` (the exact spectrum of the 2x2 cyclic operator of the 1x1 zero
matrix) and reason `ConvergedTolerance`. -/
theorem svd_cyclic_zero_matrix_witness :
    (∀ s ∈ (SVDSolve_Cyclic false false
        ⟨[0], SlepcConvergedReason.convergedTol⟩).sigmas, s = 0) ∧
    (SVDSolve_Cyclic false false
        ⟨[0], SlepcConvergedReason.convergedTol⟩).reason =
      SlepcConvergedReason.convergedTol :=
  svd_cyclic_zero_matrix 1 1 ⟨[0], SlepcConvergedReason.convergedTol⟩
    (fun sigma hs => by
      have hsigma : sigma = 0 := by simpa using hs
      subst hsigma
      refine ⟨fun _ => 1, ?_, ?_⟩
      · intro h
        have := congrFun h (Sum.inl 0)
        simp at this
      · funext idx
        cases idx with
        | inl i => simp [cyclicMult]
        | inr j => simp [cyclicMult])
    rfl

/-- C4: the cyclic SVD driver keeps exactly the eigenvalues with
positive real part (discarding the rest), reports `1/sigma` in the
generalized `which = SMALLEST` case using the alternative pencil and
`sigma` otherwise; and the left and right singular vectors are
recovered by scaling the top and bottom blocks of the eigenvector
`[u; v]/sqrt(2)` by `sqrt(2)`, which returns exactly `u` and `v`. -/
theorem svd_cyclic_triplet_recovery :
    (∀ (isgen smallest : Bool) (eigs : List ℚ),
      svdCyclicSigmas isgen smallest eigs =
        (eigs.filter (fun sigma => decide (0 < sigma))).map
          (fun sigma => if isgen && smallest then 1 / sigma else sigma)) ∧
    (∀ (m n : ℕ) (u : Fin m → ℝ) (v : Fin n → ℝ),
      cyclicVecTop m n (cyclicEigenvectorOf m n u v) = u ∧
      cyclicVecBottom m n (cyclicEigenvectorOf m n u v) = v) := by
  have hs2 : Real.sqrt 2 ≠ 0 := ne_of_gt (Real.sqrt_pos.mpr (by norm_num))
  refine ⟨svdCyclicSigmas_eq, ?_⟩
  intro m n u v
  constructor
  · funext i
    rw [cyclicVecTop, cyclicEigenvectorOf]
    rw [mul_comm, div_mul_cancel₀ _ hs2]
  · funext j
    rw [cyclicVecBottom, cyclicEigenvectorOf]
    rw [mul_comm, div_mul_cancel₀ _ hs2]

theorem filterMap_eq_nil_of_none {α β : Type} (f : α → Option β) :
    ∀ l : List α, (∀ a ∈ l, f a = none) → l.filterMap f = [] := by
  intro l
  induction l with
  | nil => intro _; rfl
  | cons a t ih =>
      intro h
      rw [List.filterMap_cons, h a (List.mem_cons_self a t)]
      exact ih (fun b hb => h b (List.mem_cons_of_mem a hb))

theorem filterMap_eq_map_of_some {α β : Type} (f : α → Option β) (g : α → β) :
    ∀ l : List α, (∀ a ∈ l, f a = some (g a)) → l.filterMap f = l.map g := by
  intro l
  induction l with
  | nil => intro _; rfl
  | cons a t ih =>
      intro h
      rw [List.filterMap_cons, h a (List.mem_cons_self a t), List.map_cons]
      rw [ih (fun b hb => h b (List.mem_cons_of_mem a hb))]

theorem BVSetRandom_fill_eq (rng : ℕ → ℚ) (N low high : ℕ)
    (h1 : low ≤ high) (h2 : high ≤ N) :
    BVSetRandom_fill rng N low high = (List.range' low (high - low)).map rng := by
  rw [BVSetRandom_fill, List.range_eq_range']
  have hsplit : List.range' 0 N =
      (List.range' 0 low ++ List.range' low (high - low)) ++
        List.range' high (N - high) := by
    have eA := List.range'_append_1 0 low (high - low)
    rw [zero_add] at eA
    have eA2 : high - low + low = high := by omega
    rw [eA2] at eA
    have eB := List.range'_append_1 0 high (N - high)
    rw [zero_add] at eB
    have eB2 : N - high + high = N := by omega
    rw [eB2] at eB
    rw [eA, eB]
  rw [hsplit, List.filterMap_append, List.filterMap_append]
  rw [filterMap_eq_nil_of_none _ (List.range' 0 low)
    (by
      intro a ha
      have := List.mem_range'_1.mp ha
      rw [if_neg]
      omega)]
  rw [filterMap_eq_nil_of_none _ (List.range' high (N - high))
    (by
      intro a ha
      have := List.mem_range'_1.mp ha
      rw [if_neg]
      omega)]
  rw [filterMap_eq_map_of_some _ rng (List.range' low (high - low))
    (by
      intro a ha
      have := List.mem_range'_1.mp ha
      rw [if_pos]
      omega)]
  simp

theorem layoutRanges_global_eq (rng : ℕ → ℚ) (N : ℕ) :
    ∀ (parts : List ℕ) (start : ℕ), start + parts.sum ≤ N →
      (layoutRanges start parts).flatMap
          (fun r => BVSetRandom_fill rng N r.1 r.2) =
        (List.range' start parts.sum).map rng := by
  intro parts
  induction parts with
  | nil => intro start _; rfl
  | cons c rest ih =>
      intro start h
      rw [List.sum_cons] at h
      rw [layoutRanges, List.flatMap_cons]
      rw [BVSetRandom_fill_eq rng N start (start + c) (by omega) (by omega)]
      rw [ih (start + c) (by omega)]
      have e1 : start + c - start = c := by omega
      rw [e1, ← List.map_append, List.range'_append_1 start c rest.sum,
        List.sum_cons, Nat.add_comm rest.sum c]

/-- C9: the global random column produced by `BVSetRandom` does not
depend on the parallel layout: for any two partitions of the `N`
global indices into consecutive ownership ranges, the assembled global
columns coincide, both being the full sequence of the `N` draws of the
shared seed stream. -/
theorem bv_setrandom_layout_independent (rng : ℕ → ℚ) (N : ℕ)
    (parts1 parts2 : List ℕ) (h1 : parts1.sum = N) (h2 : parts2.sum = N) :
    BVSetRandom_global rng N parts1 = BVSetRandom_global rng N parts2 ∧
    BVSetRandom_global rng N parts1 = (List.range N).map rng := by
  have k1 : BVSetRandom_global rng N parts1 = (List.range' 0 N).map rng := by
    rw [BVSetRandom_global, layoutRanges_global_eq rng N parts1 0 (by omega), h1]
  have k2 : BVSetRandom_global rng N parts2 = (List.range' 0 N).map rng := by
    rw [BVSetRandom_global, layoutRanges_global_eq rng N parts2 0 (by omega), h2]
  rw [k1, k2, List.range_eq_range']
  exact ⟨rfl, rfl⟩

/-- C9 witness: with the draw sequence `i / 2` over `N = 4` indices, the
layouts with local sizes `[1, 3]` and `[2, 2]` produce the same global
column. -/
theorem bv_setrandom_layout_independent_witness :
    BVSetRandom_global (fun i => (i : ℚ) / 2) 4 [1, 3] =
      BVSetRandom_global (fun i => (i : ℚ) / 2) 4 [2, 2] ∧
    BVSetRandom_global (fun i => (i : ℚ) / 2) 4 [1, 3] =
      (List.range 4).map (fun i => (i : ℚ) / 2) :=
  bv_setrandom_layout_independent (fun i => (i : ℚ) / 2) 4 [1, 3] [2, 2]
    (by decide) (by decide)

/-- C5: the CISS eigenvalue-count estimate is
`est_eig = |radius * sum / L|` with `eta = 10^(-log10(tol)/N)`, and the
block-size increment is `L_add = ceil(est_eig*eta/M) - L`, clamped
below at 0 and clamped above so that the total block size `L + L_add`
never exceeds `L_max`; when the raw value already lies in that range it
is returned unchanged. -/
theorem ciss_estimate_eigs_blocksize (estEig eta radius tol : ℝ)
    (dots : List ℂ) (L0 N0 : ℕ) (M L Lmax : ℤ) (hL : L ≤ Lmax) :
    cissEstEig radius dots L0 =
      Complex.abs ((radius : ℂ) * dots.sum / (L0 : ℂ)) ∧
    cissEta tol N0 = (10 : ℝ) ^ (-(Real.logb 10 tol) / N0) ∧
    0 ≤ EstimateNumberEigs_Ladd estEig eta M L Lmax ∧
    L + EstimateNumberEigs_Ladd estEig eta M L Lmax ≤ Lmax ∧
    (0 ≤ ⌈estEig * eta / (M : ℝ)⌉ - L → ⌈estEig * eta / (M : ℝ)⌉ ≤ Lmax →
      EstimateNumberEigs_Ladd estEig eta M L Lmax =
        ⌈estEig * eta / (M : ℝ)⌉ - L) := by
  refine ⟨rfl, rfl, ?_, ?_, ?_⟩
  · simp only [EstimateNumberEigs_Ladd]
    split_ifs <;> omega
  · simp only [EstimateNumberEigs_Ladd]
    split_ifs <;> omega
  · intro ha hb
    simp only [EstimateNumberEigs_Ladd]
    split_ifs <;> omega

/-- C5 witness: at the concrete values `est_eig = 3`, `eta = 1`,
`M = 1`, `L = 1`, `L_max = 10` the increment is in range. -/
theorem ciss_estimate_eigs_blocksize_witness :
    cissEstEig 1 [] 1 = Complex.abs ((1 : ℂ) * List.sum [] / ((1 : ℕ) : ℂ)) ∧
    cissEta 1 1 = (10 : ℝ) ^ (-(Real.logb 10 1) / (1 : ℕ)) ∧
    0 ≤ EstimateNumberEigs_Ladd 3 1 1 1 10 ∧
    (1 : ℤ) + EstimateNumberEigs_Ladd 3 1 1 1 10 ≤ 10 ∧
    (0 ≤ ⌈(3 : ℝ) * 1 / ((1 : ℤ) : ℝ)⌉ - 1 → ⌈(3 : ℝ) * 1 / ((1 : ℤ) : ℝ)⌉ ≤ 10 →
      EstimateNumberEigs_Ladd 3 1 1 1 10 = ⌈(3 : ℝ) * 1 / ((1 : ℤ) : ℝ)⌉ - 1) :=
  ciss_estimate_eigs_blocksize 3 1 1 1 [] 1 1 1 1 10 (by decide)

/-- C7: the CISS quadrature places the trapezoidal nodes at
`theta_i = 2*pi*(i+1/2)/N`, `p_i = cos(theta_i) + j*nu*sin(theta_i)`,
`omega_i = c + rho*p_i`, `w_i = nu*cos(theta_i) + j*sin(theta_i)`; and
when the matrices are flagged real and the region center has zero
imaginary part, `useconj` is enabled and only `N/2` quadrature points
induce shifted linear solves. -/
theorem ciss_quadrature_nodes (c : ℂ) (radius vscale : ℝ) (N i : ℕ)
    (isreal : Bool) :
    SetPathParameter_theta N i = 2 * Real.pi * (i + 1 / 2) / N ∧
    (SetPathParameter_pp vscale N i).re =
      Real.cos (SetPathParameter_theta N i) ∧
    (SetPathParameter_pp vscale N i).im =
      vscale * Real.sin (SetPathParameter_theta N i) ∧
    SetPathParameter_omega c radius vscale N i =
      c + (radius : ℂ) * SetPathParameter_pp vscale N i ∧
    (SetPathParameter_weight vscale N i).re =
      vscale * Real.cos (SetPathParameter_theta N i) ∧
    (SetPathParameter_weight vscale N i).im =
      Real.sin (SetPathParameter_theta N i) ∧
    (isreal = true → c.im = 0 →
      EPSSetUp_CISS_useconj isreal c = true ∧
      SetSolverComm_numSolvePoint N (EPSSetUp_CISS_useconj isreal c) = N / 2) := by
  refine ⟨?_, ?_, ?_, rfl, ?_, ?_, ?_⟩
  · rw [SetPathParameter_theta, show (0.5 : ℝ) = 1 / 2 by norm_num]
    ring
  · simp [SetPathParameter_pp, Complex.add_re, Complex.mul_re, Complex.mul_im,
      Complex.cos_ofReal_re, Complex.sin_ofReal_re]
  · simp [SetPathParameter_pp, Complex.add_im, Complex.mul_re, Complex.mul_im,
      Complex.cos_ofReal_re, Complex.sin_ofReal_re]
  · simp [SetPathParameter_weight, Complex.add_re, Complex.mul_re,
      Complex.mul_im, Complex.cos_ofReal_re, Complex.sin_ofReal_re]
  · simp [SetPathParameter_weight, Complex.add_im, Complex.mul_re,
      Complex.mul_im, Complex.cos_ofReal_re, Complex.sin_ofReal_re]
  · intro h1 h2
    have hu : EPSSetUp_CISS_useconj isreal c = true := by
      rw [EPSSetUp_CISS_useconj, if_pos ⟨h1, h2⟩]
    refine ⟨hu, ?_⟩
    rw [hu, SetSolverComm_numSolvePoint, if_pos rfl]

/-- C7 witness: concrete region with real center `2`, real matrices and
`N = 32` integration points give `useconj = true` and `32/2`
shifted solves. -/
theorem ciss_quadrature_nodes_witness :
    EPSSetUp_CISS_useconj true 2 = true ∧
    SetSolverComm_numSolvePoint 32 (EPSSetUp_CISS_useconj true 2) = 32 / 2 :=
  (ciss_quadrature_nodes 2 1 1 32 0 true).2.2.2.2.2.2 rfl (by simp)

theorem slepcAbs_nrm2 (n : ℕ) (a b : Fin n → ℝ) :
    slepcAbsEigenvalue (nrm2 n a) (nrm2 n b) =
      Real.sqrt (sumSq n a + sumSq n b) := by
  have ha : 0 ≤ sumSq n a := Finset.sum_nonneg (fun j _ => sq_nonneg _)
  have hb : 0 ≤ sumSq n b := Finset.sum_nonneg (fun j _ => sq_nonneg _)
  rw [slepcAbsEigenvalue, nrm2, nrm2, Real.sq_sqrt ha, Real.sq_sqrt hb]

/-- C6: for a real Ritz value the Krylov residual estimate equals
`|beta * y[m-1]|` with `y` the normalized eigenvector of `H` and
`beta = ||f|| >= 0`; and a complex-conjugate Ritz pair is processed
jointly: both of its columns are normalized by the joint 2-norm
`sqrt(sum yr^2 + sum yi^2)` of the two columns, and one identical
estimate `beta*sqrt(|yr[m-1]|^2 + |yi[m-1]|^2)` is assigned to both
indices of the pair. -/
theorem arnoldi_residual_estimates (n : ℕ) (beta : ℝ) (hbeta : 0 ≤ beta)
    (y yr yi : Fin (n + 1) → ℝ) :
    ArnoldiResiduals n beta [RitzColumns.single y] =
      [|beta * normalizedSingle (n + 1) y (Fin.last n)|] ∧
    normalizedPairCol (n + 1) yr yi yr =
      (fun j => yr j / Real.sqrt (sumSq (n + 1) yr + sumSq (n + 1) yi)) ∧
    normalizedPairCol (n + 1) yr yi yi =
      (fun j => yi j / Real.sqrt (sumSq (n + 1) yr + sumSq (n + 1) yi)) ∧
    ArnoldiResiduals n beta [RitzColumns.pair yr yi] =
      [beta * Real.sqrt (|normalizedPairCol (n + 1) yr yi yr (Fin.last n)| ^ 2 +
          |normalizedPairCol (n + 1) yr yi yi (Fin.last n)| ^ 2),
       beta * Real.sqrt (|normalizedPairCol (n + 1) yr yi yr (Fin.last n)| ^ 2 +
          |normalizedPairCol (n + 1) yr yi yi (Fin.last n)| ^ 2)] := by
  refine ⟨?_, ?_, ?_, ?_⟩
  · simp only [ArnoldiResiduals, List.flatMap_cons, List.flatMap_nil,
      List.append_nil, normalizeColumns, columnsErrest]
    rw [abs_mul, abs_of_nonneg hbeta]
  · funext k
    rw [normalizedPairCol, slepcAbs_nrm2, one_div, inv_mul_eq_div]
  · funext k
    rw [normalizedPairCol, slepcAbs_nrm2, one_div, inv_mul_eq_div]
  · simp only [ArnoldiResiduals, List.flatMap_cons, List.flatMap_nil,
      List.append_nil, normalizeColumns, columnsErrest, slepcAbsEigenvalue,
      sq_abs]

/-- C6 witness: concrete data with `beta = 2` and constant eigenvector
columns of length 1. -/
theorem arnoldi_residual_estimates_witness :
    ArnoldiResiduals 0 2 [RitzColumns.single (fun _ => 1)] =
      [|(2 : ℝ) * normalizedSingle 1 (fun _ => 1) (Fin.last 0)|] ∧
    normalizedPairCol 1 (fun _ => 1) (fun _ => 1) (fun _ => 1) =
      (fun _ => (1 : ℝ) / Real.sqrt (sumSq 1 (fun _ => (1 : ℝ)) +
        sumSq 1 (fun _ => (1 : ℝ)))) ∧
    normalizedPairCol 1 (fun _ => 1) (fun _ => 1) (fun _ => 1) =
      (fun _ => (1 : ℝ) / Real.sqrt (sumSq 1 (fun _ => (1 : ℝ)) +
        sumSq 1 (fun _ => (1 : ℝ)))) ∧
    ArnoldiResiduals 0 2 [RitzColumns.pair (fun _ => 1) (fun _ => 1)] =
      [2 * Real.sqrt
        (|normalizedPairCol 1 (fun _ => 1) (fun _ => 1) (fun _ => 1) (Fin.last 0)| ^ 2 +
         |normalizedPairCol 1 (fun _ => 1) (fun _ => 1) (fun _ => 1) (Fin.last 0)| ^ 2),
       2 * Real.sqrt
        (|normalizedPairCol 1 (fun _ => 1) (fun _ => 1) (fun _ => 1) (Fin.last 0)| ^ 2 +
         |normalizedPairCol 1 (fun _ => 1) (fun _ => 1) (fun _ => 1) (Fin.last 0)| ^ 2)] :=
  arnoldi_residual_estimates 0 2 zero_le_two (fun _ => 1) (fun _ => 1) (fun _ => 1)

/-- C10: whatever the tolerance, the outer refinement budget and the
per-iteration data (rank, retained pairs, maximum relative residual) -
in particular when the budget is exhausted with the maximum residual
still above the tolerance - the CISS solve loop reports the converged
reason `ConvergedTolerance` and never a diverged reason. -/
theorem ciss_solve_reason_always_converged (tol : ℝ) (refineOuter : ℕ)
    (data : ℕ → CissIterData) :
    (EPSSolve_CISS tol refineOuter data).2 =
      SlepcConvergedReason.convergedTol ∧
    (EPSSolve_CISS tol refineOuter data).2 ≠
      SlepcConvergedReason.divergedIts ∧
    (EPSSolve_CISS tol refineOuter data).2 ≠
      SlepcConvergedReason.divergedBreakdown := by
  refine ⟨rfl, ?_, ?_⟩
  · intro h
    simp [EPSSolve_CISS] at h
  · intro h
    simp [EPSSolve_CISS] at h
